import Mathlib

/-!
Verification of the `graph_analyses` repository: a directed-graph container
with node registration, edge insertion, cycle detection returning a witness
cycle, and reachability traversal.

The Rust sources are embedded shallowly:
* `std::collections::HashMap` is modelled as an association list
  (`List (α × β)`) whose iteration order is insertion order (a fixed
  refinement of the unspecified hash order); `insert` replaces the value at
  an existing key and returns the old value, exactly as in Rust.
* `std::collections::HashSet` used for `visited` sets is modelled as
  `Finset Nat`; a `HashSet` used for child storage is modelled as a
  duplicate-free `List Nat` in insertion order.
* The recursive `has_cycle_dfs` and the iterative `traverse` are modelled
  with an explicit fuel argument; the out-of-fuel result is `none`, and a
  sufficiency lemma shows the fuel chosen by the entry points never runs out.
* A Rust `panic!`/`unwrap` failure is modelled as a `none` result.

The files `src/graph/core.rs`, `src/graph/graph.rs` and
`src/usize_graph/graph.rs` each contain a structurally identical copy of
`has_cycle_dfs` / `detect_cycle` over a `nodes_dict` mapping identifiers to
child lists; that algorithm is embedded once, over the identifier-to-children
map `CMap`, and each module converts its `nodes_dict` to a `CMap`.
-/

namespace GraphAnalyses

/-! ## Association-list model of `std::collections::HashMap` -/

/-- Lookup of the value stored under key `a` (first matching entry). -/
def alookup {α β : Type} [DecidableEq α] : List (α × β) → α → Option β
  | [], _ => none
  | (k, v) :: t, a => if k = a then some v else alookup t a

/-- `HashMap::insert`: replaces the value under an existing key (keeping its
position) and returns the previous value, otherwise appends a fresh entry. -/
def hmInsert {α β : Type} [DecidableEq α] : List (α × β) → α → β → Option β × List (α × β)
  | [], k, v => (none, [(k, v)])
  | (k0, v0) :: t, k, v =>
    if k0 = k then (some v0, (k0, v) :: t)
    else
      let r := hmInsert t k v
      (r.1, (k0, v0) :: r.2)

/-- In-place update of the value stored under key `k`, modelling
`HashMap::get_mut` followed by a mutation of the value. -/
def hmAdjust {α β : Type} [DecidableEq α] : List (α × β) → α → (β → β) → List (α × β)
  | [], _, _ => []
  | (k0, v0) :: t, k, f => if k0 = k then (k0, f v0) :: t else (k0, v0) :: hmAdjust t k f

theorem alookup_eq_none {α β : Type} [DecidableEq α] (l : List (α × β)) (a : α) :
    alookup l a = none ↔ a ∉ l.map Prod.fst := by
  induction l with
  | nil => simp [alookup]
  | cons p t ih =>
    obtain ⟨k, v⟩ := p
    simp only [alookup, List.map_cons, List.mem_cons]
    by_cases h : k = a
    · subst h; simp
    · simp only [h, if_false, ih]
      constructor
      · intro hn hc
        rcases hc with hc | hc
        · exact h hc.symm
        · exact hn hc
      · intro hn hc
        exact hn (Or.inr hc)

theorem mem_keys_of_alookup {α β : Type} [DecidableEq α] {l : List (α × β)} {a : α} {b : β}
    (h : alookup l a = some b) : a ∈ l.map Prod.fst := by
  by_contra hmem
  rw [← alookup_eq_none l a] at hmem
  rw [hmem] at h
  exact Option.noConfusion h

theorem alookup_adjust_self {α β : Type} [DecidableEq α] (l : List (α × β)) (k : α) (f : β → β) :
    alookup (hmAdjust l k f) k = (alookup l k).map f := by
  induction l with
  | nil => simp [alookup, hmAdjust]
  | cons p t ih =>
    obtain ⟨k0, v0⟩ := p
    by_cases h : k0 = k <;> simp [alookup, hmAdjust, h, ih]

theorem alookup_adjust_ne {α β : Type} [DecidableEq α] (l : List (α × β)) (k k' : α)
    (f : β → β) (hne : k' ≠ k) : alookup (hmAdjust l k f) k' = alookup l k' := by
  induction l with
  | nil => simp [alookup, hmAdjust]
  | cons p t ih =>
    obtain ⟨k0, v0⟩ := p
    simp only [hmAdjust]
    by_cases h : k0 = k
    · subst h
      have hk : k0 ≠ k' := fun hc => hne hc.symm
      simp [alookup, hk]
    · by_cases h' : k0 = k' <;> simp [alookup, hmAdjust, h, h', hne, ih]

theorem hmInsert_of_alookup_none {α β : Type} [DecidableEq α] {l : List (α × β)} {k : α}
    (v : β) (h : alookup l k = none) : hmInsert l k v = (none, l ++ [(k, v)]) := by
  induction l with
  | nil => simp [hmInsert]
  | cons p t ih =>
    obtain ⟨k0, v0⟩ := p
    by_cases hk : k0 = k
    · simp [alookup, hk] at h
    · simp [alookup, hk] at h
      simp [hmInsert, hk, ih h]

theorem alookup_append_of_none {α β : Type} [DecidableEq α] {l₁ : List (α × β)}
    (l₂ : List (α × β)) {a : α} (h : alookup l₁ a = none) :
    alookup (l₁ ++ l₂) a = alookup l₂ a := by
  induction l₁ with
  | nil => simp
  | cons p t ih =>
    obtain ⟨k, v⟩ := p
    by_cases hk : k = a
    · simp [alookup, hk] at h
    · simp [alookup, hk] at h ⊢
      exact ih h

theorem alookup_append_of_some {α β : Type} [DecidableEq α] {l₁ : List (α × β)}
    (l₂ : List (α × β)) {a : α} {b : β} (h : alookup l₁ a = some b) :
    alookup (l₁ ++ l₂) a = some b := by
  induction l₁ with
  | nil => simp [alookup] at h
  | cons p t ih =>
    obtain ⟨k, v⟩ := p
    by_cases hk : k = a <;> simp [alookup, hk] at h ⊢
    · exact h
    · exact ih h

theorem alookup_map_value {α β γ : Type} [DecidableEq α] (l : List (α × β)) (f : β → γ)
    (a : α) : alookup (l.map (fun p => (p.1, f p.2))) a = (alookup l a).map f := by
  induction l with
  | nil => simp [alookup]
  | cons p t ih =>
    obtain ⟨k, v⟩ := p
    by_cases h : k = a <;> simp [alookup, h, ih]

/-! ## The identifier-to-children map and the shared DFS machinery -/

/-- The `nodes_dict` of each module, reduced to the data the searches use:
every node identifier paired with the list of its child identifiers. -/
abbrev CMap := List (Nat × List Nat)

/-- `self.nodes_dict.get(&node)` followed by iterating `n.children`:
the children of `node`, or `[]` when `node` is not registered. -/
def childrenOf (g : CMap) (n : Nat) : List Nat := (alookup g n).getD []

/-- The edge relation of the graph: `b` occurs in the child list of `a`. -/
def edgeR (g : CMap) (a b : Nat) : Prop := b ∈ childrenOf g a

instance (g : CMap) (a b : Nat) : Decidable (edgeR g a b) := by
  unfold edgeR; infer_instance

/-- All identifiers occurring in the map (keys and children): the finite
universe inside which the searches move. -/
def nodeU (g : CMap) : Finset Nat :=
  (g.map Prod.fst).toFinset ∪ (g.map Prod.snd).flatten.toFinset

/-- Total number of stored child entries, used to bound traversal fuel. -/
def edgeCount (g : CMap) : Nat := (g.map Prod.snd).flatten.length

/-- First position of `a` in `l`, modelling `rec_stack.iter().position`. -/
def posOf (a : Nat) : List Nat → Nat
  | [] => 0
  | b :: t => if b = a then 0 else posOf a t + 1

theorem posOf_lt_length {a : Nat} {l : List Nat} (h : a ∈ l) : posOf a l < l.length := by
  induction l with
  | nil => simp at h
  | cons b t ih =>
    by_cases hb : b = a
    · simp [posOf, hb]
    · have : a ∈ t := by
        rcases List.mem_cons.mp h with h' | h'
        · exact absurd h'.symm hb
        · exact h'
      simp only [posOf, hb, if_false]
      exact Nat.succ_lt_succ (ih this)

theorem drop_posOf {a : Nat} {l : List Nat} (h : a ∈ l) :
    ∃ t, l.drop (posOf a l) = a :: t := by
  induction l with
  | nil => simp at h
  | cons b t ih =>
    by_cases hb : b = a
    · exact ⟨t, by simp [posOf, hb]⟩
    · have : a ∈ t := by
        rcases List.mem_cons.mp h with h' | h'
        · exact absurd h'.symm hb
        · exact h'
      obtain ⟨t', ht'⟩ := ih this
      exact ⟨t', by simp [posOf, hb, ht']⟩

mutual

/-- `GraphCore::has_cycle_dfs` (identical in all three modules), with the
recursion stack threaded as a pure value and the `(bool, cycle)` pair of the
source fused into an `Option`: `some cyc` is a `true` return with the found
cycle, `none` a `false` return.  The returned `Finset` is the final visited
set.  The outer `Option` is the fuel guard: `none` means out of fuel, which
the chosen entry-point fuel provably never produces (every recursive call
decrements `fuel`, keeping the recursion structural). -/
def has_cycle_dfs (g : CMap) :
    Nat → Nat → Finset Nat → List Nat → Option (Option (List Nat) × Finset Nat)
  | 0, _, _, _ => none
  | fuel + 1, node, visited, rec_stack =>
    if node ∈ rec_stack then
      some (some (rec_stack.drop (posOf node rec_stack) ++ [node]), visited)
    else if node ∈ visited then
      some (none, visited)
    else
      match alookup g node with
      | none => some (none, insert node visited)
      | some cs => dfs_children g fuel cs (insert node visited) (rec_stack ++ [node])

/-- The `for &neighbor in &n.children` loop inside `has_cycle_dfs`. -/
def dfs_children (g : CMap) :
    Nat → List Nat → Finset Nat → List Nat → Option (Option (List Nat) × Finset Nat)
  | 0, _, _, _ => none
  | _ + 1, [], visited, _ => some (none, visited)
  | fuel + 1, c :: rest, visited, rec_stack =>
    match has_cycle_dfs g fuel c visited rec_stack with
    | none => none
    | some (some cyc, v) => some (some cyc, v)
    | some (none, v) => dfs_children g fuel rest v rec_stack

end

/-- Fuel sufficient for the cycle search over the whole of `g`. -/
def dfsFuel (g : CMap) : Nat := (nodeU g).card * (edgeCount g + 2) + 1

/-- The `for &node in self.nodes_dict.keys()` loop of `detect_cycle`. -/
def detect_cycle_loop (g : CMap) (fuel : Nat) : List Nat → Finset Nat → Option (List Nat)
  | [], _ => none
  | k :: ks, visited =>
    if k ∈ visited then detect_cycle_loop g fuel ks visited
    else
      match has_cycle_dfs g fuel k visited [] with
      | some (some cyc, _) => some cyc
      | some (none, v') => detect_cycle_loop g fuel ks v'
      | none => detect_cycle_loop g fuel ks visited

/-- `detect_cycle`, shared by all three modules: scans all registered nodes,
running the DFS from each not-yet-visited one, and returns the first witness
cycle found, or `none` when the scan completes without finding one. -/
def detectC (g : CMap) : Option (List Nat) :=
  detect_cycle_loop g (dfsFuel g) (g.map Prod.fst) ∅

/-- `GraphCore::traverse`: iterative DFS with an explicit stack, collecting
the visited nodes in visit order (the callback `visit` is invoked exactly on
this sequence).  `Vec::push`/`Vec::pop` work at the end of the vector; the
stack is modelled head-first, so pushing the children `c₁ … cₖ` in order
leaves `cₖ` on top, i.e. prepends the reversed child list. -/
def traverseF (g : CMap) : Nat → Finset Nat → List Nat → Option (List Nat)
  | 0, _, _ => none
  | fuel + 1, visited, stack =>
    match stack with
    | [] => some []
    | node :: rest =>
      if node ∈ visited then traverseF g fuel visited rest
      else
        (traverseF g fuel (insert node visited) ((childrenOf g node).reverse ++ rest)).map
          (fun out => node :: out)

/-- Entry point of `traverse`, with provably sufficient fuel. -/
def traverseC (g : CMap) (start : Nat) : List Nat :=
  (traverseF g ((nodeU g).card * (edgeCount g + 1) + 2) ∅ [start]).getD []

/-! ## `src/graph/core.rs`: the un-keyed core graph (`GraphCore`) -/

namespace Core

/-- `Node` of `core.rs`: child identifiers in a `HashSet` (duplicate-free,
modelled in insertion order). -/
structure Node where
  id : Nat
  children : List Nat
deriving DecidableEq, Repr

def Node.new (id : Nat) : Node := ⟨id, []⟩

/-- `Node::add_edge` of `core.rs`: returns whether the edge was already
present, then inserts it into the set (a no-op when already present). -/
def Node.add_edge (n : Node) (idv : Nat) : Bool × Node :=
  (decide (idv ∈ n.children),
    if idv ∈ n.children then n else { n with children := n.children ++ [idv] })

structure GraphCore where
  nodes_dict : List (Nat × Node)
deriving DecidableEq, Repr

def GraphCore.new : GraphCore := ⟨[]⟩

/-- `GraphCore::add_node`: inserts a fresh empty node under `new_id` and
reports an error when an entry was already present.  Note the source inserts
*before* checking, so a duplicate registration replaces the old node. -/
def GraphCore.add_node (g : GraphCore) (new_id : Nat) : Except String Unit × GraphCore :=
  let r := hmInsert g.nodes_dict new_id (Node.new new_id)
  match r.1 with
  | some n =>
    (Except.error ("duplication: node " ++ toString n.id ++ " is already added"), ⟨r.2⟩)
  | none => (Except.ok (), ⟨r.2⟩)

/-- `GraphCore::add_edge`: unwraps the `from` node (the `none` result models
the `unwrap` panic on an unregistered `from`) and records the edge, returning
the duplicate indicator. -/
def GraphCore.add_edge (g : GraphCore) (from_id to_id : Nat) : Option Bool × GraphCore :=
  match alookup g.nodes_dict from_id with
  | none => (none, g)
  | some n =>
    (some (n.add_edge to_id).1,
      ⟨hmAdjust g.nodes_dict from_id (fun nd => (nd.add_edge to_id).2)⟩)

/-- The `nodes_dict` of a `GraphCore`, as an identifier-to-children map. -/
def GraphCore.cmap (g : GraphCore) : CMap :=
  g.nodes_dict.map (fun p => (p.1, p.2.children))

/-- `GraphCore::detect_cycle`. -/
def GraphCore.detect_cycle (g : GraphCore) : Option (List Nat) := detectC g.cmap

/-- `GraphCore::traverse`, returning the sequence of nodes on which the
`visit` callback is invoked, in order. -/
def GraphCore.traverse (g : GraphCore) (start : Nat) : List Nat := traverseC g.cmap start

/-- The edge relation of a `GraphCore`: `to` is among the children recorded
for `from`. -/
def GraphCore.Edge (g : GraphCore) (a b : Nat) : Prop :=
  ∃ n, alookup g.nodes_dict a = some n ∧ b ∈ n.children

instance (g : GraphCore) (a b : Nat) : Decidable (GraphCore.Edge g a b) := by
  unfold GraphCore.Edge
  cases alookup g.nodes_dict a <;> simp <;> infer_instance

end Core

/-! ## `src/graph/graph.rs`: the keyed graph (`Graph<T>`) -/

namespace Keyed

/-- The two error shapes produced by the keyed layer.  The source formats
them as strings (`"node {:#?} is already added"` / `"node {:#?} is not
added"`); since the key type is generic the formatted payload is modelled as
the offending key itself. -/
inductive KErr (K : Type) where
  | duplicateNode (k : K)
  | unknownNode (k : K)
deriving DecidableEq, Repr

/-- `Node` of `graph.rs`: child identifiers in a `Vec` (duplicates kept). -/
structure Node where
  id : Nat
  children : List Nat
deriving DecidableEq, Repr

def Node.new (id : Nat) : Node := ⟨id, []⟩

/-- `Node::add_edge` of `graph.rs`: returns whether the edge was already
present, then *always* pushes it (duplicates are recorded). -/
def Node.add_edge (n : Node) (idv : Nat) : Bool × Node :=
  (decide (idv ∈ n.children), { n with children := n.children ++ [idv] })

structure Graph (K : Type) where
  id_counter : Nat
  id_dict : List (K × Nat)
  nodes_dict : List (Nat × Node)
deriving DecidableEq, Repr

variable {K : Type} [DecidableEq K]

def Graph.new : Graph K := ⟨0, [], []⟩

/-- `Graph::add_node`: rejects an already-mapped key, otherwise allocates the
next identifier, records the key mapping and creates the node. -/
def Graph.add_node (g : Graph K) (u : K) : Except (KErr K) Unit × Graph K :=
  if (alookup g.id_dict u).isSome then (Except.error (KErr.duplicateNode u), g)
  else
    let new_id := g.id_counter
    (Except.ok (),
      ⟨new_id + 1,
        (hmInsert g.id_dict u new_id).2,
        (hmInsert g.nodes_dict new_id (Node.new new_id)).2⟩)

/-- `Graph::add_edge`: resolves both keys (failing with the offending key),
then unwraps the `from` node (the `none` result models the `unwrap` panic,
unreachable for graphs built through this API) and records the edge. -/
def Graph.add_edge (g : Graph K) (u_from u_to : K) :
    Option (Except (KErr K) Bool) × Graph K :=
  match alookup g.id_dict u_from with
  | none => (some (Except.error (KErr.unknownNode u_from)), g)
  | some from_id =>
    match alookup g.id_dict u_to with
    | none => (some (Except.error (KErr.unknownNode u_to)), g)
    | some to_id =>
      match alookup g.nodes_dict from_id with
      | none => (none, g)
      | some n =>
        (some (Except.ok (n.add_edge to_id).1),
          { g with nodes_dict := hmAdjust g.nodes_dict from_id (fun nd => (nd.add_edge to_id).2) })

/-- The `nodes_dict` of a keyed `Graph`, as an identifier-to-children map. -/
def Graph.cmap (g : Graph K) : CMap :=
  g.nodes_dict.map (fun p => (p.1, p.2.children))

/-- `Graph::detect_cycle` of `graph.rs`: runs the identifier-level search on
`nodes_dict` and returns its result directly (`Option<Vec<NodeID>>`). -/
def Graph.detect_cycle (g : Graph K) : Option (List Nat) := detectC g.cmap

/-- Reverse lookup of the key owning an identifier, scanning `id_dict`. -/
def Graph.revKey (g : Graph K) (i : Nat) : Option K :=
  (g.id_dict.find? (fun p => decide (p.2 = i))).map Prod.fst

/-- Modelled from the spec: §4.2 requires the keyed `detect_cycle` to
translate "every identifier in the witness sequence back to its Key via the
bijection" before returning.  No such translation exists in `graph.rs`
(its `detect_cycle` returns `Option<Vec<NodeID>>`); this definition follows
the spec's words for comparison with `Graph.detect_cycle`. -/
def Graph.detect_cycle_keyTranslated (g : Graph K) : Option (List K) :=
  (detectC g.cmap).map (fun cyc => cyc.filterMap g.revKey)

/-- Modelled from the spec: `Graph::traverse` is invoked by `main.rs` but is
absent from `graph.rs`; §4.2 specifies that an unmapped `start_key` performs
no visits and that otherwise the identifier-level visited-set DFS runs with
each visited identifier translated back to its key. -/
def Graph.traverse (g : Graph K) (start_key : K) : List K :=
  match alookup g.id_dict start_key with
  | none => []
  | some i => (traverseC g.cmap i).filterMap g.revKey

end Keyed

/-! ## `src/usize_graph/graph.rs`: the `usize`-keyed graph -/

namespace UsizeG

/-- `Node` of `usize_graph/graph.rs`: identical to the keyed module's node
(`Vec` children, duplicates kept). -/
structure Node where
  id : Nat
  children : List Nat
deriving DecidableEq, Repr

def Node.new (id : Nat) : Node := ⟨id, []⟩

def Node.add_edge (n : Node) (idv : Nat) : Bool × Node :=
  (decide (idv ∈ n.children), { n with children := n.children ++ [idv] })

structure Graph where
  id_counter : Nat
  usize_id_dict : List (Nat × Nat)
  nodes_dict : List (Nat × Node)
deriving DecidableEq, Repr

def Graph.new : Graph := ⟨0, [], []⟩

/-- The scanning loop of `Graph::get_node`, over the remaining entries of
`usize_id_dict` with the accumulated `ret`.  The outer `Option` models the
abort (`NodeID duplication`) taken when a second matching entry is found:
`none` is the abort, `some ret` the normal return. -/
def get_node_go (id : Nat) : List (Nat × Nat) → Option Nat → Option (Option Nat)
  | [], ret => some ret
  | (k, v) :: t, ret =>
    if v = id then
      match ret with
      | none => get_node_go id t (some k)
      | some _ => none
    else get_node_go id t ret

/-- `Graph::get_node` of `usize_graph/graph.rs`: scans `usize_id_dict` for
entries whose identifier equals `id`, aborting if more than one matches. -/
def Graph.get_node (g : Graph) (id : Nat) : Option (Option Nat) :=
  get_node_go id g.usize_id_dict none

/-- `Graph::add_node` of `usize_graph/graph.rs`. -/
def Graph.add_node (g : Graph) (u : Nat) : Except String Unit × Graph :=
  if (alookup g.usize_id_dict u).isSome then
    (Except.error ("node " ++ toString u ++ " is already added"), g)
  else
    let new_id := g.id_counter
    (Except.ok (),
      ⟨new_id + 1,
        (hmInsert g.usize_id_dict u new_id).2,
        (hmInsert g.nodes_dict new_id (Node.new new_id)).2⟩)

/-- `Graph::add_edge` of `usize_graph/graph.rs`. -/
def Graph.add_edge (g : Graph) (u_from u_to : Nat) :
    Option (Except String Bool) × Graph :=
  match alookup g.usize_id_dict u_from with
  | none => (some (Except.error ("node " ++ toString u_from ++ " is not added")), g)
  | some from_id =>
    match alookup g.usize_id_dict u_to with
    | none => (some (Except.error ("node " ++ toString u_to ++ " is not added")), g)
    | some to_id =>
      match alookup g.nodes_dict from_id with
      | none => (none, g)
      | some n =>
        (some (Except.ok (n.add_edge to_id).1),
          { g with nodes_dict := hmAdjust g.nodes_dict from_id (fun nd => (nd.add_edge to_id).2) })

/-- One mutating call against the `usize`-keyed graph, for quantifying over
all states reachable through the public API. -/
inductive Op where
  | addNode (u : Nat)
  | addEdge (a b : Nat)
deriving DecidableEq, Repr

def Graph.apply (g : Graph) : Op → Graph
  | Op.addNode u => (g.add_node u).2
  | Op.addEdge a b => (g.add_edge a b).2

def applyOps (ops : List Op) : Graph := ops.foldl Graph.apply Graph.new

end UsizeG

/-! ## Basic facts about the shared DFS -/

theorem alookup_mem {α β : Type} [DecidableEq α] {l : List (α × β)} {a : α} {b : β}
    (h : alookup l a = some b) : (a, b) ∈ l := by
  induction l with
  | nil => simp [alookup] at h
  | cons p t ih =>
    obtain ⟨k, v⟩ := p
    by_cases hk : k = a
    · subst hk
      simp [alookup] at h
      simp [h]
    · simp [alookup, hk] at h
      exact List.mem_cons_of_mem _ (ih h)

theorem length_le_flatten {α : Type} {l : List α} {L : List (List α)} (h : l ∈ L) :
    l.length ≤ L.flatten.length := by
  induction L with
  | nil => simp at h
  | cons m t ih =>
    rcases List.mem_cons.mp h with h' | h'
    · subst h'
      simp [List.flatten]
    · calc l.length ≤ t.flatten.length := ih h'
        _ ≤ (m :: t).flatten.length := by simp [List.flatten]

theorem mem_nodeU_of_alookup {g : CMap} {node : Nat} {cs : List Nat}
    (h : alookup g node = some cs) : node ∈ nodeU g := by
  unfold nodeU
  exact Finset.mem_union_left _ (List.mem_toFinset.mpr (mem_keys_of_alookup h))

theorem length_le_edgeCount {g : CMap} {node : Nat} {cs : List Nat}
    (h : alookup g node = some cs) : cs.length ≤ edgeCount g := by
  unfold edgeCount
  have : cs ∈ g.map Prod.snd := by
    have := alookup_mem h
    exact List.mem_map.mpr ⟨(node, cs), this, rfl⟩
  exact length_le_flatten this

theorem sdiff_card_lt {g : CMap} {node : Nat} {v : Finset Nat}
    (hU : node ∈ nodeU g) (hv : node ∉ v) :
    (nodeU g \ insert node v).card < (nodeU g \ v).card := by
  have hsub : nodeU g \ insert node v ⊆ nodeU g \ v :=
    Finset.sdiff_subset_sdiff (Finset.Subset.refl _) (Finset.subset_insert _ _)
  refine Finset.card_lt_card ((Finset.ssubset_iff_of_subset hsub).mpr ?_)
  exact ⟨node, Finset.mem_sdiff.mpr ⟨hU, hv⟩, by simp⟩

/-- The visited set only grows across the search (both mutual functions). -/
theorem dfs_mono (g : CMap) : ∀ fuel : Nat,
    (∀ node v rs r, has_cycle_dfs g fuel node v rs = some r → v ⊆ r.2) ∧
    (∀ cs v rs r, dfs_children g fuel cs v rs = some r → v ⊆ r.2) := by
  intro fuel
  induction fuel with
  | zero =>
    constructor
    · intro node v rs r h
      simp [has_cycle_dfs] at h
    · intro cs v rs r h
      simp [dfs_children] at h
  | succ n ih =>
    constructor
    · intro node v rs r h
      rw [has_cycle_dfs] at h
      by_cases h1 : node ∈ rs
      · rw [if_pos h1] at h
        cases h
        exact Finset.Subset.refl _
      · rw [if_neg h1] at h
        by_cases h2 : node ∈ v
        · rw [if_pos h2] at h
          cases h
          exact Finset.Subset.refl _
        · rw [if_neg h2] at h
          rcases ha : alookup g node with _ | cs
          · rw [ha] at h
            cases h
            exact Finset.subset_insert _ _
          · rw [ha] at h
            exact (Finset.subset_insert _ _).trans (ih.2 _ _ _ _ h)
    · intro cs v rs r h
      match cs with
      | [] =>
        rw [dfs_children] at h
        cases h
        exact Finset.Subset.refl _
      | c :: rest =>
        rw [dfs_children] at h
        rcases hc : has_cycle_dfs g n c v rs with _ | ⟨_ | cyc, w⟩
        · rw [hc] at h
          cases h
        · rw [hc] at h
          exact (ih.1 _ _ _ _ hc).trans (ih.2 _ _ _ _ h)
        · rw [hc] at h
          cases h
          exact ih.1 _ _ _ _ hc

/-- With enough fuel the search never hits the fuel guard. -/
theorem dfs_isSome (g : CMap) : ∀ fuel : Nat,
    (∀ node v rs, (nodeU g \ v).card * (edgeCount g + 2) + 1 ≤ fuel →
      (has_cycle_dfs g fuel node v rs).isSome) ∧
    (∀ cs v rs, cs.length ≤ edgeCount g →
      (nodeU g \ v).card * (edgeCount g + 2) + cs.length + 1 ≤ fuel →
      (dfs_children g fuel cs v rs).isSome) := by
  intro fuel
  induction fuel with
  | zero =>
    constructor
    · intro node v rs hb
      omega
    · intro cs v rs hlen hb
      omega
  | succ n ih =>
    constructor
    · intro node v rs hb
      rw [has_cycle_dfs]
      by_cases h1 : node ∈ rs
      · simp [h1]
      · rw [if_neg h1]
        by_cases h2 : node ∈ v
        · simp [h2]
        · rw [if_neg h2]
          rcases ha : alookup g node with _ | cs
          · simp
          · have hU : node ∈ nodeU g := mem_nodeU_of_alookup ha
            have hlt := sdiff_card_lt hU h2
            have hlen := length_le_edgeCount ha
            refine ih.2 cs (insert node v) (rs ++ [node]) hlen ?_
            have h3 : ((nodeU g \ insert node v).card + 1) * (edgeCount g + 2) ≤
                (nodeU g \ v).card * (edgeCount g + 2) :=
              Nat.mul_le_mul_right _ hlt
            rw [Nat.succ_mul] at h3
            omega
    · intro cs v rs hlen hb
      match cs with
      | [] => simp [dfs_children]
      | c :: rest =>
        rw [dfs_children]
        simp only [List.length_cons] at hlen hb
        have hd : (has_cycle_dfs g n c v rs).isSome := by
          refine ih.1 c v rs ?_
          omega
        rcases hc : has_cycle_dfs g n c v rs with _ | ⟨_ | cyc, w⟩
        · rw [hc] at hd
          simp at hd
        · have hvw : v ⊆ w := (dfs_mono g n).1 _ _ _ _ hc
          have hcard : (nodeU g \ w).card ≤ (nodeU g \ v).card :=
            Finset.card_le_card (Finset.sdiff_subset_sdiff (Finset.Subset.refl _) hvw)
          refine ih.2 rest w rs ?_ ?_
          · omega
          · have : (nodeU g \ w).card * (edgeCount g + 2) ≤
                (nodeU g \ v).card * (edgeCount g + 2) :=
              Nat.mul_le_mul_right _ hcard
            omega
        · simp

/-! ## Soundness of a `false` return: the coloring invariant -/

/-- The coloring invariant of the search.  A node is "black" when it is
visited but no longer on the recursion stack (fully explored).  Every black
node has only black edge targets and lies on no directed cycle. -/
def Inv (g : CMap) (v : Finset Nat) (rs : List Nat) : Prop :=
  ∀ x ∈ v, x ∉ rs →
    (∀ y, edgeR g x y → y ∈ v ∧ y ∉ rs) ∧ ¬ Relation.TransGen (edgeR g) x x

/-- Anything reachable from a black node is black. -/
theorem reach_black {g : CMap} {v : Finset Nat} {rs : List Nat}
    (hInv : Inv g v rs) {x z : Nat} (hx : x ∈ v) (hxr : x ∉ rs)
    (h : Relation.ReflTransGen (edgeR g) x z) : z ∈ v ∧ z ∉ rs := by
  induction h with
  | refl => exact ⟨hx, hxr⟩
  | tail _ hbc ih => exact (hInv _ ih.1 ih.2).1 _ hbc

theorem not_mem_append_right {a : Nat} {l₁ l₂ : List Nat} (h : a ∉ l₁ ++ l₂) : a ∉ l₁ :=
  fun hc => h (List.mem_append.mpr (Or.inl hc))

/-- Core soundness of a `false` (`none`) return of the search: the invariant
is preserved, the visited set grows, and the searched node ends up black. -/
theorem dfs_none (g : CMap) : ∀ fuel : Nat,
    (∀ node v rs v', Inv g v rs →
      has_cycle_dfs g fuel node v rs = some (none, v') →
      Inv g v' rs ∧ v ⊆ v' ∧ node ∈ v' ∧ node ∉ rs) ∧
    (∀ cs v rs v', Inv g v rs →
      dfs_children g fuel cs v rs = some (none, v') →
      Inv g v' rs ∧ v ⊆ v' ∧ ∀ c ∈ cs, c ∈ v' ∧ c ∉ rs) := by
  intro fuel
  induction fuel with
  | zero =>
    constructor
    · intro node v rs v' _ h
      simp [has_cycle_dfs] at h
    · intro cs v rs v' _ h
      simp [dfs_children] at h
  | succ n ih =>
    constructor
    · intro node v rs v' hInv h
      rw [has_cycle_dfs] at h
      by_cases h1 : node ∈ rs
      · simp [h1] at h
      · rw [if_neg h1] at h
        by_cases h2 : node ∈ v
        · rw [if_pos h2] at h
          simp only [Option.some.injEq, Prod.mk.injEq] at h
          obtain ⟨-, rfl⟩ := h
          exact ⟨hInv, Finset.Subset.refl _, h2, h1⟩
        · rw [if_neg h2] at h
          rcases ha : alookup g node with _ | cs
          · rw [ha] at h
            simp only [Option.some.injEq, Prod.mk.injEq] at h
            obtain ⟨-, rfl⟩ := h
            have hch : childrenOf g node = [] := by simp [childrenOf, ha]
            refine ⟨?_, Finset.subset_insert _ _, Finset.mem_insert_self _ _, h1⟩
            intro x hx hxrs
            rcases Finset.mem_insert.mp hx with rfl | hx'
            · constructor
              · intro y hy
                rw [edgeR, hch] at hy
                simp at hy
              · intro hT
                obtain ⟨c, hc, -⟩ := (Relation.TransGen.head'_iff).mp hT
                rw [edgeR, hch] at hc
                simp at hc
            · have hb := hInv x hx' hxrs
              exact ⟨fun y hy => ⟨Finset.mem_insert_of_mem (hb.1 y hy).1, (hb.1 y hy).2⟩, hb.2⟩
          · rw [ha] at h
            have hInv1 : Inv g (insert node v) (rs ++ [node]) := by
              intro x hx hxrs1
              have hxne : x ≠ node := fun hc => hxrs1 (by simp [hc])
              have hxrs : x ∉ rs := not_mem_append_right hxrs1
              rcases Finset.mem_insert.mp hx with rfl | hx'
              · exact absurd rfl hxne
              · have hb := hInv x hx' hxrs
                refine ⟨fun y hy => ?_, hb.2⟩
                have hy' := hb.1 y hy
                have hyne : y ≠ node := fun hc => h2 (hc ▸ hy'.1)
                exact ⟨Finset.mem_insert_of_mem hy'.1, by
                  simp only [List.mem_append, List.mem_singleton]
                  rintro (hc | hc)
                  · exact hy'.2 hc
                  · exact hyne hc⟩
            obtain ⟨hInv', hsub', hcs⟩ := ih.2 cs (insert node v) (rs ++ [node]) v' hInv1 h
            have hchn : childrenOf g node = cs := by simp [childrenOf, ha]
            have hnodeV' : node ∈ v' := hsub' (Finset.mem_insert_self _ _)
            refine ⟨?_, (Finset.subset_insert _ _).trans hsub', hnodeV', h1⟩
            intro x hx hxrs
            by_cases hxn : x = node
            · subst hxn
              constructor
              · intro y hy
                rw [edgeR, hchn] at hy
                obtain ⟨hyv', hyrs1⟩ := hcs y hy
                exact ⟨hyv', not_mem_append_right hyrs1⟩
              · intro hT
                obtain ⟨c, hc, hreach⟩ := (Relation.TransGen.head'_iff).mp hT
                rw [edgeR, hchn] at hc
                obtain ⟨hcv', hcrs1⟩ := hcs c hc
                have := reach_black hInv' hcv' hcrs1 hreach
                exact this.2 (by simp)
            · have hxrs1 : x ∉ rs ++ [node] := by
                simp only [List.mem_append, List.mem_singleton]
                rintro (hc | hc)
                · exact hxrs hc
                · exact hxn hc
              have hb := hInv' x hx hxrs1
              exact ⟨fun y hy => ⟨(hb.1 y hy).1, not_mem_append_right (hb.1 y hy).2⟩, hb.2⟩
    · intro cs v rs v' hInv h
      match cs with
      | [] =>
        rw [dfs_children] at h
        simp only [Option.some.injEq, Prod.mk.injEq] at h
        obtain ⟨-, rfl⟩ := h
        exact ⟨hInv, Finset.Subset.refl _, by simp⟩
      | c :: rest =>
        rw [dfs_children] at h
        rcases hc : has_cycle_dfs g n c v rs with _ | ⟨_ | cyc, w⟩
        · rw [hc] at h
          cases h
        · rw [hc] at h
          obtain ⟨hInvW, hvw, hcw, hcrs⟩ := ih.1 c v rs w hInv hc
          obtain ⟨hInv', hwv', hrest⟩ := ih.2 rest w rs v' hInvW h
          refine ⟨hInv', hvw.trans hwv', ?_⟩
          intro c' hc'
          rcases List.mem_cons.mp hc' with rfl | hc'
          · exact ⟨hwv' hcw, hcrs⟩
          · exact hrest c' hc'
        · rw [hc] at h
          simp at h

theorem edgeR_source_key {g : CMap} {x y : Nat} (h : edgeR g x y) :
    ∃ cs, alookup g x = some cs := by
  rw [edgeR, childrenOf] at h
  rcases ha : alookup g x with _ | cs
  · rw [ha] at h
    simp at h
  · exact ⟨cs, rfl⟩

theorem fuel_le_dfsFuel {g : CMap} (v : Finset Nat) :
    (nodeU g \ v).card * (edgeCount g + 2) + 1 ≤ dfsFuel g := by
  unfold dfsFuel
  have : (nodeU g \ v).card ≤ (nodeU g).card :=
    Finset.card_le_card (Finset.sdiff_subset)
  have := Nat.mul_le_mul_right (edgeCount g + 2) this
  omega

/-- A completed `detect_cycle` scan leaves a black superset of the scanned
keys satisfying the coloring invariant. -/
theorem detect_cycle_loop_none (g : CMap) :
    ∀ (ks : List Nat) (v : Finset Nat), Inv g v [] →
      detect_cycle_loop g (dfsFuel g) ks v = none →
      ∃ w, v ⊆ w ∧ Inv g w [] ∧ ∀ k ∈ ks, k ∈ w := by
  intro ks
  induction ks with
  | nil =>
    intro v hInv _
    exact ⟨v, Finset.Subset.refl _, hInv, by simp⟩
  | cons k ks ih =>
    intro v hInv h
    rw [detect_cycle_loop] at h
    by_cases h1 : k ∈ v
    · rw [if_pos h1] at h
      obtain ⟨w, hvw, hIw, hks⟩ := ih v hInv h
      refine ⟨w, hvw, hIw, ?_⟩
      intro k' hk'
      rcases List.mem_cons.mp hk' with rfl | hk'
      · exact hvw h1
      · exact hks k' hk'
    · rw [if_neg h1] at h
      have hS : (has_cycle_dfs g (dfsFuel g) k v []).isSome :=
        (dfs_isSome g (dfsFuel g)).1 k v [] (fuel_le_dfsFuel v)
      rcases hc : has_cycle_dfs g (dfsFuel g) k v [] with _ | ⟨_ | cyc, v'⟩
      · rw [hc] at hS
        simp at hS
      · rw [hc] at h
        obtain ⟨hInv', hvv', hkv', -⟩ := (dfs_none g (dfsFuel g)).1 k v [] v' hInv hc
        obtain ⟨w, hv'w, hIw, hks⟩ := ih v' hInv' h
        refine ⟨w, hvv'.trans hv'w, hIw, ?_⟩
        intro k' hk'
        rcases List.mem_cons.mp hk' with rfl | hk'
        · exact hv'w hkv'
        · exact hks k' hk'
      · rw [hc] at h
        simp at h

/-- When the full scan reports no cycle, the graph has no directed cycle. -/
theorem detectC_none_acyclic {g : CMap} (h : detectC g = none) :
    ¬ ∃ x, Relation.TransGen (edgeR g) x x := by
  rintro ⟨x, hT⟩
  have hInv0 : Inv g ∅ [] := by
    intro y hy
    simp at hy
  obtain ⟨w, -, hIw, hks⟩ := detect_cycle_loop_none g (g.map Prod.fst) ∅ hInv0 h
  obtain ⟨c, hc, -⟩ := (Relation.TransGen.head'_iff).mp hT
  obtain ⟨cs, hcs⟩ := edgeR_source_key hc
  have hxw : x ∈ w := hks x (mem_keys_of_alookup hcs)
  exact (hIw x hxw (by simp)).2 hT

/-! ## Validity of a returned witness cycle -/

/-- The shape every returned witness cycle has: closed (same first and last
node), consecutive elements joined by edges of the graph, length at least
two, and literally the suffix of an edge-chain recursion stack from the
re-encountered node's position, with that node appended. -/
def GoodCycle (g : CMap) (cyc : List Nat) : Prop :=
  2 ≤ cyc.length ∧ List.Chain' (edgeR g) cyc ∧
    (∃ x, cyc.head? = some x ∧ cyc.getLast? = some x) ∧
    ∃ rs pos, ∃ hlt : pos < rs.length, List.Chain' (edgeR g) rs ∧
      cyc = rs.drop pos ++ [rs.get ⟨pos, hlt⟩]

theorem get_posOf {node : Nat} {rs : List Nat} (h : node ∈ rs)
    (hlt : posOf node rs < rs.length) : rs.get ⟨posOf node rs, hlt⟩ = node := by
  obtain ⟨t, ht⟩ := drop_posOf h
  have h1 : (rs.drop (posOf node rs)).head? = some node := by rw [ht]; rfl
  have h2 : (rs.drop (posOf node rs)).head? = rs[posOf node rs]? := by
    rw [List.head?_drop]
  rw [h2] at h1
  have := List.getElem?_eq_getElem hlt
  rw [this] at h1
  simpa using h1

/-- The cycle extracted at a recursion-stack hit is a valid witness. -/
theorem extracted_cycle_good {g : CMap} {node : Nat} {rs : List Nat}
    (hch : List.Chain' (edgeR g) rs)
    (hlast : ∀ x, rs.getLast? = some x → edgeR g x node)
    (hmem : node ∈ rs) :
    GoodCycle g (rs.drop (posOf node rs) ++ [node]) := by
  have hlt : posOf node rs < rs.length := posOf_lt_length hmem
  obtain ⟨t, ht⟩ := drop_posOf hmem
  have hne : rs ≠ [] := by
    intro hc
    rw [hc] at hmem
    simp at hmem
  have hlastrs : ∃ z, rs.getLast? = some z := by
    rcases hx : rs.getLast? with _ | z
    · rw [List.getLast?_eq_none_iff] at hx
      exact absurd hx hne
    · exact ⟨z, rfl⟩
  obtain ⟨z, hz⟩ := hlastrs
  have hdropLast : (rs.drop (posOf node rs)).getLast? = some z := by
    conv at hz => rw [← List.take_append_drop (posOf node rs) rs]
    rw [List.getLast?_append_of_ne_nil _ (by rw [ht]; simp)] at hz
    exact hz
  refine ⟨?_, ?_, ?_, rs, posOf node rs, hlt, hch, ?_⟩
  · rw [ht]
    simp
  · rw [List.chain'_append]
    refine ⟨hch.drop _, List.chain'_singleton _, ?_⟩
    intro x hx y hy
    simp only [List.head?_cons, Option.mem_def, Option.some.injEq] at hy
    subst hy
    rw [hdropLast] at hx
    simp only [Option.mem_def, Option.some.injEq] at hx
    subst hx
    exact hlast z hz
  · refine ⟨node, ?_, ?_⟩
    · rw [ht]
      rfl
    · rw [List.getLast?_concat]
  · rw [get_posOf hmem hlt]

/-- Soundness of a `true` return: the reported cycle is a valid witness. -/
theorem dfs_some (g : CMap) : ∀ fuel : Nat,
    (∀ node v rs cyc v', List.Chain' (edgeR g) rs →
      (∀ x, rs.getLast? = some x → edgeR g x node) →
      has_cycle_dfs g fuel node v rs = some (some cyc, v') → GoodCycle g cyc) ∧
    (∀ cs v rs cyc v', List.Chain' (edgeR g) rs →
      (∀ c ∈ cs, ∀ x, rs.getLast? = some x → edgeR g x c) →
      dfs_children g fuel cs v rs = some (some cyc, v') → GoodCycle g cyc) := by
  intro fuel
  induction fuel with
  | zero =>
    constructor
    · intro node v rs cyc v' _ _ h
      simp [has_cycle_dfs] at h
    · intro cs v rs cyc v' _ _ h
      simp [dfs_children] at h
  | succ n ih =>
    constructor
    · intro node v rs cyc v' hch hlast h
      rw [has_cycle_dfs] at h
      by_cases h1 : node ∈ rs
      · rw [if_pos h1] at h
        simp only [Option.some.injEq, Prod.mk.injEq] at h
        obtain ⟨rfl, -⟩ := h
        exact extracted_cycle_good hch hlast h1
      · rw [if_neg h1] at h
        by_cases h2 : node ∈ v
        · rw [if_pos h2] at h
          simp at h
        · rw [if_neg h2] at h
          rcases ha : alookup g node with _ | cs
          · rw [ha] at h
            simp at h
          · rw [ha] at h
            have hch1 : List.Chain' (edgeR g) (rs ++ [node]) := by
              rw [List.chain'_append]
              refine ⟨hch, List.chain'_singleton _, ?_⟩
              intro x hx y hy
              simp only [List.head?_cons, Option.mem_def, Option.some.injEq] at hy
              subst hy
              exact hlast x hx
            refine ih.2 cs (insert node v) (rs ++ [node]) cyc v' hch1 ?_ h
            intro c hc x hx
            rw [List.getLast?_concat] at hx
            simp only [Option.mem_def, Option.some.injEq] at hx
            subst hx
            rw [edgeR, childrenOf, ha]
            simpa using hc
    · intro cs v rs cyc v' hch hlast h
      match cs with
      | [] =>
        rw [dfs_children] at h
        simp at h
      | c :: rest =>
        rw [dfs_children] at h
        rcases hc : has_cycle_dfs g n c v rs with _ | ⟨_ | cyc', w⟩
        · rw [hc] at h
          cases h
        · rw [hc] at h
          refine ih.2 rest w rs cyc v' hch ?_ h
          intro c' hc' x hx
          exact hlast c' (List.mem_cons_of_mem _ hc') x hx
        · rw [hc] at h
          simp only [Option.some.injEq, Prod.mk.injEq] at h
          obtain ⟨rfl, -⟩ := h
          exact ih.1 c v rs cyc' w hch (fun x hx => hlast c (by simp) x hx) hc

/-- Any cycle returned by the full scan is a valid witness. -/
theorem detectC_some_good {g : CMap} {cyc : List Nat} (h : detectC g = some cyc) :
    GoodCycle g cyc := by
  rw [detectC] at h
  revert h
  generalize (∅ : Finset Nat) = v
  induction (g.map Prod.fst) generalizing v with
  | nil =>
    intro h
    simp [detect_cycle_loop] at h
  | cons k ks ih =>
    intro h
    rw [detect_cycle_loop] at h
    by_cases h1 : k ∈ v
    · rw [if_pos h1] at h
      exact ih v h
    · rw [if_neg h1] at h
      rcases hc : has_cycle_dfs g (dfsFuel g) k v [] with _ | ⟨_ | cyc', v'⟩
      · rw [hc] at h
        exact ih v h
      · rw [hc] at h
        exact ih v' h
      · rw [hc] at h
        simp only [Option.some.injEq] at h
        subst h
        exact (dfs_some g (dfsFuel g)).1 k v [] cyc' v'
          (List.chain'_nil) (fun x hx => by simp at hx) hc

/-- A closed edge-chain gives a transitive edge path. -/
theorem chain'_getLast_transGen {R : Nat → Nat → Prop} :
    ∀ (l : List Nat) (a b : Nat), List.Chain' R (a :: l) → l.getLast? = some b →
      Relation.TransGen R a b := by
  intro l
  induction l with
  | nil =>
    intro a b _ h
    simp at h
  | cons c t ih =>
    intro a b hch hl
    have h1 : R a c := (List.chain'_cons.mp hch).1
    match t with
    | [] =>
      simp at hl
      subst hl
      exact Relation.TransGen.single h1
    | d :: t' =>
      have hl' : (d :: t').getLast? = some b := by
        rw [List.getLast?_cons_cons] at hl
        exact hl
      exact Relation.TransGen.head h1 (ih c b (List.chain'_cons.mp hch).2 hl')

/-- A valid witness cycle demonstrates a directed cycle. -/
theorem goodCycle_transGen {g : CMap} {cyc : List Nat} (h : GoodCycle g cyc) :
    ∃ x, Relation.TransGen (edgeR g) x x := by
  obtain ⟨hlen, hch, ⟨x, hhead, hlast⟩, -⟩ := h
  match cyc with
  | [] => simp at hhead
  | a :: l =>
    simp only [List.head?_cons, Option.some.injEq] at hhead
    subst hhead
    match l with
    | [] => simp at hlen
    | b :: l' =>
      refine ⟨a, chain'_getLast_transGen (b :: l') a a hch ?_⟩
      rw [List.getLast?_cons_cons] at hlast
      exact hlast

/-! ## Correctness of `traverse` -/

theorem traverseF_isSome (g : CMap) : ∀ (fuel : Nat) (v : Finset Nat) (stack : List Nat),
    (nodeU g \ v).card * (edgeCount g + 1) + stack.length + 1 ≤ fuel →
    (traverseF g fuel v stack).isSome := by
  intro fuel
  induction fuel with
  | zero =>
    intro v stack hb
    omega
  | succ n ih =>
    intro v stack hb
    match stack with
    | [] => simp [traverseF]
    | node :: rest =>
      rw [traverseF]
      by_cases h1 : node ∈ v
      · rw [if_pos h1]
        refine ih v rest ?_
        simp only [List.length_cons] at hb
        omega
      · rw [if_neg h1]
        have hmap : ∀ o : Option (List Nat),
            (Option.map (fun out => node :: out) o).isSome = o.isSome := by
          intro o
          cases o <;> rfl
        rw [hmap]
        rcases ha : alookup g node with _ | cs
        · have hch : childrenOf g node = [] := by simp [childrenOf, ha]
          rw [hch]
          refine ih (insert node v) rest ?_
          have hcard : (nodeU g \ insert node v).card ≤ (nodeU g \ v).card :=
            Finset.card_le_card
              (Finset.sdiff_subset_sdiff (Finset.Subset.refl _) (Finset.subset_insert _ _))
          have := Nat.mul_le_mul_right (edgeCount g + 1) hcard
          simp only [List.length_cons] at hb
          omega
        · have hch : childrenOf g node = cs := by simp [childrenOf, ha]
          rw [hch]
          refine ih (insert node v) (cs.reverse ++ rest) ?_
          have hU : node ∈ nodeU g := mem_nodeU_of_alookup ha
          have hlt := sdiff_card_lt hU h1
          have hlen := length_le_edgeCount ha
          have h3 : ((nodeU g \ insert node v).card + 1) * (edgeCount g + 1) ≤
              (nodeU g \ v).card * (edgeCount g + 1) :=
            Nat.mul_le_mul_right _ hlt
          rw [Nat.succ_mul] at h3
          simp only [List.length_cons] at hb
          simp only [List.length_append, List.length_reverse]
          omega

/-- The bundle of invariants of the iterative DFS: every output node is
fresh and reachable from the stack, the output has no duplicates, every
stack node ends up visited or output, and the output is closed under edges
up to previously visited nodes. -/
theorem traverseF_spec (g : CMap) : ∀ (fuel : Nat) (v : Finset Nat) (stack out : List Nat),
    traverseF g fuel v stack = some out →
      (∀ x ∈ out, x ∉ v ∧ ∃ y ∈ stack, Relation.ReflTransGen (edgeR g) y x) ∧
      out.Nodup ∧
      (∀ z ∈ stack, z ∈ v ∨ z ∈ out) ∧
      (∀ x ∈ out, ∀ y, edgeR g x y → y ∈ v ∨ y ∈ out) := by
  intro fuel
  induction fuel with
  | zero =>
    intro v stack out h
    simp [traverseF] at h
  | succ n ih =>
    intro v stack out h
    match stack with
    | [] =>
      rw [traverseF] at h
      simp only [Option.some.injEq] at h
      subst h
      refine ⟨by simp, List.nodup_nil, by simp, by simp⟩
    | node :: rest =>
      rw [traverseF] at h
      by_cases h1 : node ∈ v
      · rw [if_pos h1] at h
        obtain ⟨hA, hN, hS, hC⟩ := ih v rest out h
        refine ⟨?_, hN, ?_, hC⟩
        · intro x hx
          obtain ⟨hxv, y, hy, hr⟩ := hA x hx
          exact ⟨hxv, y, List.mem_cons_of_mem _ hy, hr⟩
        · intro z hz
          rcases List.mem_cons.mp hz with rfl | hz
          · exact Or.inl h1
          · exact hS z hz
      · rw [if_neg h1] at h
        rw [Option.map_eq_some'] at h
        obtain ⟨out', hrec, rfl⟩ := h
        obtain ⟨hA, hN, hS, hC⟩ := ih (insert node v) ((childrenOf g node).reverse ++ rest) out' hrec
        have hstack' : ∀ z, z ∈ (childrenOf g node).reverse ++ rest ↔
            z ∈ childrenOf g node ∨ z ∈ rest := by
          intro z
          simp [List.mem_append]
        refine ⟨?_, ?_, ?_, ?_⟩
        · intro x hx
          rcases List.mem_cons.mp hx with rfl | hx
          · exact ⟨h1, x, by simp, Relation.ReflTransGen.refl⟩
          · obtain ⟨hxv, y, hy, hr⟩ := hA x hx
            have hxv' : x ∉ v := fun hc => hxv (Finset.mem_insert_of_mem hc)
            rcases (hstack' y).mp hy with hy' | hy'
            · exact ⟨hxv', node, by simp,
                Relation.ReflTransGen.head (by rw [edgeR]; exact hy') hr⟩
            · exact ⟨hxv', y, List.mem_cons_of_mem _ hy', hr⟩
        · refine List.nodup_cons.mpr ⟨?_, hN⟩
          intro hc
          exact (hA node hc).1 (Finset.mem_insert_self _ _)
        · intro z hz
          rcases List.mem_cons.mp hz with rfl | hz
          · exact Or.inr (List.mem_cons_self _ _)
          · rcases hS z ((hstack' z).mpr (Or.inr hz)) with hz' | hz'
            · rcases Finset.mem_insert.mp hz' with rfl | hz''
              · exact Or.inr (List.mem_cons_self _ _)
              · exact Or.inl hz''
            · exact Or.inr (List.mem_cons_of_mem _ hz')
        · intro x hx y hy
          have hmem : ∀ w, w ∈ insert node v ∨ w ∈ out' → w ∈ v ∨ w ∈ node :: out' := by
            intro w hw
            rcases hw with hw | hw
            · rcases Finset.mem_insert.mp hw with rfl | hw'
              · exact Or.inr (List.mem_cons_self _ _)
              · exact Or.inl hw'
            · exact Or.inr (List.mem_cons_of_mem _ hw)
          rcases List.mem_cons.mp hx with rfl | hx
          · have : y ∈ (childrenOf g x).reverse ++ rest := (hstack' y).mpr (Or.inl hy)
            exact hmem y (hS y this)
          · exact hmem y (hC x hx y hy)

/-- `traverse` visits exactly the reachable nodes, each exactly once. -/
theorem traverseC_spec (g : CMap) (start : Nat) :
    (traverseC g start).Nodup ∧
    ∀ x, x ∈ traverseC g start ↔ Relation.ReflTransGen (edgeR g) start x := by
  have hS : (traverseF g ((nodeU g).card * (edgeCount g + 1) + 2) ∅ [start]).isSome := by
    refine traverseF_isSome g _ ∅ [start] ?_
    have : nodeU g \ ∅ = nodeU g := Finset.sdiff_empty
    rw [this]
    simp
  rcases hout : traverseF g ((nodeU g).card * (edgeCount g + 1) + 2) ∅ [start] with _ | out
  · rw [hout] at hS
    simp at hS
  · obtain ⟨hA, hN, hS', hC⟩ := traverseF_spec g _ ∅ [start] out hout
    have hval : traverseC g start = out := by
      rw [traverseC, hout]
      rfl
    rw [hval]
    refine ⟨hN, ?_⟩
    intro x
    constructor
    · intro hx
      obtain ⟨-, y, hy, hr⟩ := hA x hx
      simp only [List.mem_singleton] at hy
      subst hy
      exact hr
    · intro hr
      have hstart : start ∈ out := by
        rcases hS' start (by simp) with hc | hc
        · simp at hc
        · exact hc
      induction hr with
      | refl => exact hstart
      | tail _ hbc ihr =>
        rcases hC _ ihr _ hbc with hc | hc
        · simp at hc
        · exact hc

/-- `traverse` from an unregistered start visits exactly the start node. -/
theorem traverseC_unregistered {g : CMap} {start : Nat}
    (h : alookup g start = none) : traverseC g start = [start] := by
  have hstep : ∀ n : Nat, traverseF g (n + 2) ∅ [start] = some [start] := by
    intro n
    have hch : childrenOf g start = [] := by simp [childrenOf, h]
    rw [show n + 2 = (n + 1) + 1 by omega]
    rw [traverseF]
    rw [if_neg (by simp)]
    rw [hch]
    simp only [List.reverse_nil, List.nil_append]
    rw [traverseF]
    rfl
  rw [traverseC, hstep ((nodeU g).card * (edgeCount g + 1))]
  rfl

/-! ## Bridging the shared machinery to the module types -/

theorem Core.edge_iff (g : Core.GraphCore) (a b : Nat) :
    edgeR g.cmap a b ↔ g.Edge a b := by
  rw [edgeR, childrenOf, Core.GraphCore.cmap, Core.GraphCore.Edge,
    alookup_map_value g.nodes_dict (fun n => n.children) a]
  cases alookup g.nodes_dict a <;> simp

theorem Core.edge_eq (g : Core.GraphCore) : edgeR g.cmap = g.Edge := by
  funext a b
  exact propext (Core.edge_iff g a b)

theorem Core.graphcore_cmap_keys (g : Core.GraphCore) :
    g.cmap.map Prod.fst = g.nodes_dict.map Prod.fst := by
  rw [Core.GraphCore.cmap, List.map_map]
  rfl

theorem Keyed.graph_cmap_keys {K : Type} [DecidableEq K] (g : Keyed.Graph K) :
    g.cmap.map Prod.fst = g.nodes_dict.map Prod.fst := by
  rw [Keyed.Graph.cmap, List.map_map]
  rfl

/-! ## Demonstration graphs used by the concrete parts of the claims -/

/-- Core graph with nodes 0,1,2 and edges 0→1, 1→2 (acyclic chain). -/
def demoChain : Core.GraphCore :=
  (((((Core.GraphCore.new.add_node 0).2.add_node 1).2.add_node 2).2.add_edge 0 1).2.add_edge
    1 2).2

/-- Core graph with the triangle 0→1→2→0. -/
def demoTriangle : Core.GraphCore := (demoChain.add_edge 2 0).2

/-- Core graph with a single node 0 carrying a self-loop. -/
def demoSelfLoop : Core.GraphCore := ((Core.GraphCore.new.add_node 0).2.add_edge 0 0).2

/-! ## Claim C1 -/

/-- C1: `GraphCore::detect_cycle` returns `none` exactly when the graph
contains no directed cycle (no node with a nonempty edge path back to
itself). -/
theorem C1_detect_cycle_none_iff_acyclic (g : Core.GraphCore) :
    g.detect_cycle = none ↔ ¬ ∃ x, Relation.TransGen g.Edge x x := by
  constructor
  · intro h
    rw [← Core.edge_eq g]
    exact detectC_none_acyclic h
  · intro h
    rcases hd : g.detect_cycle with _ | cyc
    · rfl
    · exact absurd ((Core.edge_eq g) ▸ goodCycle_transGen (detectC_some_good hd)) h

/-! ## Claim C2 -/

/-- C2: every witness sequence returned by `GraphCore::detect_cycle` is a
genuine closed directed cycle — it begins and ends with the same node, has
length at least two, consecutive elements joined by edges of the graph, and
is the contiguous suffix of an edge-chain recursion stack from the
re-encountered node's position with that node appended; a self-loop on node
0 yields exactly `[0, 0]`. -/
theorem C2_detect_cycle_witness_valid :
    (∀ (g : Core.GraphCore) (cyc : List Nat), g.detect_cycle = some cyc →
      2 ≤ cyc.length ∧ List.Chain' g.Edge cyc ∧
        (∃ x, cyc.head? = some x ∧ cyc.getLast? = some x) ∧
        ∃ rs pos, ∃ hlt : pos < rs.length, List.Chain' g.Edge rs ∧
          cyc = rs.drop pos ++ [rs.get ⟨pos, hlt⟩]) ∧
    demoSelfLoop.detect_cycle = some [0, 0] := by
  constructor
  · intro g cyc hd
    have hg := detectC_some_good hd
    rw [GoodCycle, Core.edge_eq g] at hg
    exact hg
  · rfl

/-- Concrete instantiation of C2 on the triangle 0→1→2→0. -/
theorem C2_witness :
    2 ≤ ([0, 1, 2, 0] : List Nat).length ∧
      List.Chain' demoTriangle.Edge [0, 1, 2, 0] ∧
      (∃ x, ([0, 1, 2, 0] : List Nat).head? = some x ∧
        ([0, 1, 2, 0] : List Nat).getLast? = some x) ∧
      ∃ rs pos, ∃ hlt : pos < rs.length, List.Chain' demoTriangle.Edge rs ∧
        ([0, 1, 2, 0] : List Nat) = rs.drop pos ++ [rs.get ⟨pos, hlt⟩] :=
  C2_detect_cycle_witness_valid.1 demoTriangle [0, 1, 2, 0] rfl

/-! ## Claim C7 -/

/-- C7: for a registered start node, `GraphCore::traverse` invokes the
callback exactly once per node reachable from `start` along outgoing edges
(including `start`), in first-visit order (the returned list is the visit
sequence), and never on an unreachable node. -/
theorem C7_traverse_visits_reachable_once (g : Core.GraphCore) (start : Nat)
    (hreg : start ∈ g.nodes_dict.map Prod.fst) :
    (g.traverse start).Nodup ∧
    ∀ x, x ∈ g.traverse start ↔ Relation.ReflTransGen g.Edge start x := by
  have h := traverseC_spec g.cmap start
  rw [Core.edge_eq g] at h
  exact h

/-- Concrete instantiation of C7 on the triangle graph. -/
theorem C7_witness :
    (0 ∈ demoTriangle.nodes_dict.map Prod.fst) ∧
      ((demoTriangle.traverse 0).Nodup ∧
        ∀ x, x ∈ demoTriangle.traverse 0 ↔
          Relation.ReflTransGen demoTriangle.Edge 0 x) :=
  ⟨by decide, C7_traverse_visits_reachable_once demoTriangle 0 (by decide)⟩

/-! ## Claim C8 -/

/-- C8 as stated is false for the core variant: `GraphCore::traverse` from a
start node that was never registered performs one visit (of the start node
itself), not zero.  Concretely, on the empty graph the visit sequence for
start 5 is `[5]`, not `[]`. -/
theorem C8_counterexample :
    Core.GraphCore.new.traverse 5 = [5] ∧ Core.GraphCore.new.traverse 5 ≠ [] := by
  refine ⟨rfl, ?_⟩
  intro h
  rw [show Core.GraphCore.new.traverse 5 = [5] from rfl] at h
  cases h

/-- C8 amended: the core `traverse` with an unregistered start invokes the
callback exactly once, on the start node itself, and raises no error; the
keyed layer's `traverse` (modelled from the spec, since `graph.rs` has no
`traverse`) performs zero visits for an unmapped start key. -/
theorem C8_amended_traverse_unregistered :
    (∀ (g : Core.GraphCore) (start : Nat), start ∉ g.nodes_dict.map Prod.fst →
      g.traverse start = [start]) ∧
    (∀ (K : Type) (inst : DecidableEq K) (gk : Keyed.Graph K) (k : K),
      alookup gk.id_dict k = none → gk.traverse k = []) := by
  constructor
  · intro g start h
    have hl : alookup g.cmap start = none := by
      rw [alookup_eq_none, Core.graphcore_cmap_keys]
      exact h
    exact traverseC_unregistered hl
  · intro K inst gk k h
    rw [Keyed.Graph.traverse, h]

/-- Concrete instantiation of the amended C8. -/
theorem C8_witness :
    (5 ∉ Core.GraphCore.new.nodes_dict.map Prod.fst ∧
      Core.GraphCore.new.traverse 5 = [5]) ∧
    (alookup (Keyed.Graph.new : Keyed.Graph Nat).id_dict 3 = none ∧
      (Keyed.Graph.new : Keyed.Graph Nat).traverse 3 = []) :=
  ⟨⟨by decide, C8_amended_traverse_unregistered.1 Core.GraphCore.new 5 (by decide)⟩,
    ⟨rfl, C8_amended_traverse_unregistered.2 Nat inferInstance Keyed.Graph.new 3 rfl⟩⟩

/-! ## Claim C3 -/

/-- Core graph with node 0 carrying the self-loop edge 0→0, the state before
the duplicate registration of C3. -/
def demoC3 : Core.GraphCore := ((Core.GraphCore.new.add_node 0).2.add_edge 0 0).2

/-- C3 fails on the code for the core registration entry point:
`GraphCore::add_node` inserts the fresh empty node *before* checking for a
duplicate, so the duplicate call reports the error but replaces the existing
node, wiping its accumulated outgoing edges.  Concretely: after registering
node 0 and adding the edge 0→0, a second `add_node 0` returns the duplicate
error yet leaves node 0 with an empty child set. -/
theorem C3_core_add_node_duplicate_wipes_node :
    (demoC3.add_node 0).1 = Except.error "duplication: node 0 is already added" ∧
    alookup demoC3.nodes_dict 0 = some ⟨0, [0]⟩ ∧
    alookup (demoC3.add_node 0).2.nodes_dict 0 = some ⟨0, []⟩ :=
  ⟨rfl, rfl, rfl⟩

/-! ## Claim C5 -/

/-- C5: in both `Node::add_edge` implementations (`core.rs` set-based and
`graph.rs` vector-based) and at the `GraphCore::add_edge` level for a
registered source node, adding an edge returns `false` when the edge is new,
`true` on every subsequent identical call, and the edge is present in the
child collection after every call. -/
theorem C5_add_edge_first_false_then_true :
    (∀ (n : Core.Node) (b : Nat),
      (b ∉ n.children → (n.add_edge b).1 = false) ∧
      b ∈ (n.add_edge b).2.children ∧
      ((n.add_edge b).2.add_edge b).1 = true ∧
      b ∈ ((n.add_edge b).2.add_edge b).2.children) ∧
    (∀ (n : Keyed.Node) (b : Nat),
      (b ∉ n.children → (n.add_edge b).1 = false) ∧
      b ∈ (n.add_edge b).2.children ∧
      ((n.add_edge b).2.add_edge b).1 = true ∧
      b ∈ ((n.add_edge b).2.add_edge b).2.children) ∧
    (∀ (g : Core.GraphCore) (a b : Nat) (nd : Core.Node),
      alookup g.nodes_dict a = some nd →
        (b ∉ nd.children → (g.add_edge a b).1 = some false) ∧
        (∃ nd₁, alookup (g.add_edge a b).2.nodes_dict a = some nd₁ ∧ b ∈ nd₁.children) ∧
        ((g.add_edge a b).2.add_edge a b).1 = some true ∧
        (∃ nd₂, alookup ((g.add_edge a b).2.add_edge a b).2.nodes_dict a = some nd₂ ∧
          b ∈ nd₂.children)) := by
  have hcore : ∀ (n : Core.Node) (b : Nat),
      (b ∉ n.children → (n.add_edge b).1 = false) ∧
      b ∈ (n.add_edge b).2.children ∧
      ((n.add_edge b).2.add_edge b).1 = true ∧
      b ∈ ((n.add_edge b).2.add_edge b).2.children := by
    intro n b
    by_cases h : b ∈ n.children <;> simp [Core.Node.add_edge, h]
  refine ⟨hcore, ?_, ?_⟩
  · intro n b
    by_cases h : b ∈ n.children <;> simp [Keyed.Node.add_edge, h]
  · intro g a b nd hnd
    have hmem : b ∈ (nd.add_edge b).2.children := (hcore nd b).2.1
    have h1 : g.add_edge a b =
        (some (nd.add_edge b).1,
          ⟨hmAdjust g.nodes_dict a (fun n => (n.add_edge b).2)⟩) := by
      rw [Core.GraphCore.add_edge, hnd]
    have hl1 : alookup (g.add_edge a b).2.nodes_dict a = some (nd.add_edge b).2 := by
      rw [h1]
      show alookup (hmAdjust g.nodes_dict a _) a = _
      rw [alookup_adjust_self, hnd]
      rfl
    have h2 : (g.add_edge a b).2.add_edge a b =
        (some ((nd.add_edge b).2.add_edge b).1,
          ⟨hmAdjust (g.add_edge a b).2.nodes_dict a (fun n => (n.add_edge b).2)⟩) := by
      rw [Core.GraphCore.add_edge, hl1]
    refine ⟨?_, ⟨(nd.add_edge b).2, hl1, hmem⟩, ?_, ?_⟩
    · intro hb
      rw [h1]
      simp only [Option.some.injEq]
      exact (hcore nd b).1 hb
    · rw [h2]
      simp only [Option.some.injEq]
      exact (hcore nd b).2.2.1
    · refine ⟨((nd.add_edge b).2.add_edge b).2, ?_, (hcore nd b).2.2.2⟩
      rw [h2]
      show alookup (hmAdjust (g.add_edge a b).2.nodes_dict a _) a = _
      rw [alookup_adjust_self, hl1]
      rfl

/-- Concrete instantiation of C5. -/
theorem C5_witness :
    ((1 ∉ (Core.Node.new 0).children ∧ ((Core.Node.new 0).add_edge 1).1 = false) ∧
      1 ∈ ((Core.Node.new 0).add_edge 1).2.children ∧
      (((Core.Node.new 0).add_edge 1).2.add_edge 1).1 = true) ∧
    ((demoSelfLoop.add_edge 0 1).1 = some false ∧
      ((demoSelfLoop.add_edge 0 1).2.add_edge 0 1).1 = some true) := by
  have h1 := (C5_add_edge_first_false_then_true.1 (Core.Node.new 0) 1)
  have h2 := C5_add_edge_first_false_then_true.2.2 demoSelfLoop 0 1 ⟨0, [0]⟩ rfl
  exact ⟨⟨⟨by decide, h1.1 (by decide)⟩, h1.2.1, h1.2.2.1⟩,
    ⟨h2.1 (by decide), h2.2.2.1⟩⟩

/-! ## Claim C6 -/

/-- C6: the keyed `Graph::add_edge` with an unmapped key fails with the
`UnknownNode` error naming the offending key — the from-key when it is
unmapped, otherwise the to-key — and returns the graph unchanged; with both
keys mapped it delegates to the node-level `add_edge` and passes its
duplicate-indicator boolean through unchanged. -/
theorem C6_keyed_add_edge_unknown_key (K : Type) (inst : DecidableEq K)
    (g : Keyed.Graph K) (a b : K) :
    (alookup g.id_dict a = none →
      g.add_edge a b = (some (Except.error (Keyed.KErr.unknownNode a)), g)) ∧
    (∀ ida, alookup g.id_dict a = some ida → alookup g.id_dict b = none →
      g.add_edge a b = (some (Except.error (Keyed.KErr.unknownNode b)), g)) ∧
    (∀ ida idb nd, alookup g.id_dict a = some ida → alookup g.id_dict b = some idb →
      alookup g.nodes_dict ida = some nd →
      (g.add_edge a b).1 = some (Except.ok (nd.add_edge idb).1)) := by
  refine ⟨?_, ?_, ?_⟩
  · intro h
    rw [Keyed.Graph.add_edge, h]
  · intro ida ha hb
    rw [Keyed.Graph.add_edge, ha, hb]
  · intro ida idb nd ha hb hnd
    simp [Keyed.Graph.add_edge, ha, hb, hnd]

/-- Keyed graph over `Nat` keys 1 and 2, for the concrete C6 instance. -/
def demoC6 : Keyed.Graph Nat := ((Keyed.Graph.new.add_node 1).2.add_node 2).2

/-- Concrete instantiation of C6. -/
theorem C6_witness :
    demoC6.add_edge 5 1 = (some (Except.error (Keyed.KErr.unknownNode 5)), demoC6) ∧
    demoC6.add_edge 1 5 = (some (Except.error (Keyed.KErr.unknownNode 5)), demoC6) ∧
    (demoC6.add_edge 1 2).1 = some (Except.ok false) := by
  have h := C6_keyed_add_edge_unknown_key Nat inferInstance demoC6
  exact ⟨(h 5 1).1 rfl, (h 1 5).2.1 0 rfl rfl, (h 1 2).2.2 0 1 ⟨0, []⟩ rfl rfl rfl⟩

/-! ## Claim C9 -/

/-- Keyed graph where the same edge 1→2 was added twice. -/
def demoC9 : Keyed.Graph Nat :=
  (((Keyed.Graph.new.add_node 1).2.add_node 2).2.add_edge 1 2).2.add_edge 1 2 |>.2

/-- C9 fails on the code: the keyed wrapper stores children in a `Vec` and
`Node::add_edge` always pushes, so a repeated edge appears with multiplicity.
Concretely, after adding the edge 1→2 twice, the child list of identifier 0
contains identifier 1 twice. -/
theorem C9_counterexample :
    alookup demoC9.nodes_dict 0 = some ⟨0, [1, 1]⟩ ∧
    ¬ (([1, 1] : List Nat).count 1 ≤ 1) := by
  refine ⟨rfl, ?_⟩
  decide

/-- C9 amended: the keyed wrapper's edge storage preserves multiplicity —
every `Node::add_edge` call appends the target to the child list (raising
its count by one), and every successful keyed `Graph::add_edge` does the
same to the resolved source node; the set-based (de-duplicated) child
storage belongs to the un-keyed `GraphCore`, whose `Node::add_edge` leaves
an already-present edge un-duplicated. -/
theorem C9_amended_keyed_children_keep_multiplicity :
    (∀ (n : Keyed.Node) (b : Nat),
      (n.add_edge b).2.children = n.children ++ [b] ∧
      (n.add_edge b).2.children.count b = n.children.count b + 1) ∧
    (∀ (K : Type) (inst : DecidableEq K) (g : Keyed.Graph K) (a b : K) (ida idb : Nat)
      (nd : Keyed.Node), alookup g.id_dict a = some ida → alookup g.id_dict b = some idb →
      alookup g.nodes_dict ida = some nd →
      ∃ nd', alookup (g.add_edge a b).2.nodes_dict ida = some nd' ∧
        nd'.children = nd.children ++ [idb]) ∧
    (∀ (n : Core.Node) (b : Nat), b ∈ n.children → (n.add_edge b).2.children = n.children) := by
  refine ⟨?_, ?_, ?_⟩
  · intro n b
    constructor
    · rfl
    · simp [Keyed.Node.add_edge]
  · intro K inst g a b ida idb nd ha hb hnd
    have h1 : (g.add_edge a b).2 =
        { g with nodes_dict := hmAdjust g.nodes_dict ida (fun n => (n.add_edge idb).2) } := by
      simp [Keyed.Graph.add_edge, ha, hb, hnd]
    refine ⟨(nd.add_edge idb).2, ?_, rfl⟩
    rw [h1]
    show alookup (hmAdjust g.nodes_dict ida _) ida = _
    rw [alookup_adjust_self, hnd]
    rfl
  · intro n b hb
    simp [Core.Node.add_edge, hb]

/-- Concrete instantiation of the amended C9. -/
theorem C9_witness :
    ((⟨0, [1]⟩ : Keyed.Node).add_edge 1).2.children = [1, 1] ∧
    (∃ nd', alookup demoC9.nodes_dict 0 = some nd' ∧ nd'.children = [1] ++ [1]) ∧
    ((⟨0, [1]⟩ : Core.Node).add_edge 1).2.children = [1] := by
  refine ⟨?_, ?_, ?_⟩
  · exact (C9_amended_keyed_children_keep_multiplicity.1 ⟨0, [1]⟩ 1).1
  · exact C9_amended_keyed_children_keep_multiplicity.2.1 Nat inferInstance
      (((Keyed.Graph.new.add_node 1).2.add_node 2).2.add_edge 1 2).2 1 2 0 1 ⟨0, [1]⟩
      rfl rfl rfl
  · exact C9_amended_keyed_children_keep_multiplicity.2.2 ⟨0, [1]⟩ 1 (by decide)

/-! ## Claim C4 -/

/-- Keyed graph over `Nat` with the single key 5 carrying a self-loop. -/
def demoC4 : Keyed.Graph Nat := ((Keyed.Graph.new.add_node 5).2.add_edge 5 5).2

/-- C4 fails on the code: the keyed `Graph::detect_cycle` of `graph.rs`
returns the internal identifier sequence unchanged — it performs no
translation back to caller keys.  On the graph with the single key 5
(identifier 0) and a self-loop, the code returns `[0, 0]`, while the
spec-modelled key translation would return `[5, 5]`. -/
theorem C4_counterexample :
    demoC4.detect_cycle = some [0, 0] ∧
    demoC4.detect_cycle_keyTranslated = some [5, 5] ∧
    demoC4.detect_cycle ≠ demoC4.detect_cycle_keyTranslated := by
  refine ⟨rfl, rfl, ?_⟩
  intro h
  rw [show demoC4.detect_cycle = some [0, 0] from rfl,
    show demoC4.detect_cycle_keyTranslated = some [5, 5] from rfl] at h
  simp at h

theorem chain'_mem_source {R : Nat → Nat → Prop} :
    ∀ (l : List Nat) (i : Nat), List.Chain' R l → i ∈ l →
      (∃ y, R i y) ∨ l.getLast? = some i := by
  intro l
  induction l with
  | nil =>
    intro i _ h
    simp at h
  | cons a t ih =>
    intro i hch hi
    match t with
    | [] =>
      simp only [List.mem_singleton] at hi
      subst hi
      right
      rfl
    | b :: t' =>
      rcases List.mem_cons.mp hi with rfl | hi'
      · exact Or.inl ⟨b, (List.chain'_cons.mp hch).1⟩
      · rcases ih i (List.chain'_cons.mp hch).2 hi' with h' | h'
        · exact Or.inl h'
        · right
          rw [List.getLast?_cons_cons]
          exact h'

/-- Every element of a valid witness cycle is a registered node (it is the
source of some edge). -/
theorem goodCycle_mem_keys {g : CMap} {cyc : List Nat} (hg : GoodCycle g cyc) :
    ∀ i ∈ cyc, ∃ cs, alookup g i = some cs := by
  obtain ⟨hlen, hch, ⟨x, hhead, hlast⟩, -⟩ := hg
  intro i hi
  rcases chain'_mem_source cyc i hch hi with ⟨y, hy⟩ | hl
  · exact edgeR_source_key hy
  · have hix : x = i := by
      rw [hlast] at hl
      exact Option.some.inj hl
    subst hix
    match cyc, hhead, hch, hlen with
    | a :: b :: t, hhead, hch, _ =>
      have hax : a = x := by simpa using hhead
      subst hax
      exact edgeR_source_key (List.chain'_cons.mp hch).1

/-- C4 amended: the keyed `detect_cycle` performs no key translation — the
returned witness consists of internal identifiers; whenever every registered
identifier was produced by this layer's registration (i.e. appears as the
identifier of some entry of `id_dict`), so does every identifier of the
returned cycle. -/
theorem C4_amended_detect_cycle_returns_ids (K : Type) (inst : DecidableEq K)
    (g : Keyed.Graph K)
    (hwf : ∀ i ∈ g.nodes_dict.map Prod.fst, ∃ p ∈ g.id_dict, p.2 = i)
    (cyc : List Nat) (h : g.detect_cycle = some cyc) :
    ∀ i ∈ cyc, ∃ p ∈ g.id_dict, p.2 = i := by
  intro i hi
  obtain ⟨cs, hcs⟩ := goodCycle_mem_keys (detectC_some_good h) i hi
  refine hwf i ?_
  have hmem := mem_keys_of_alookup hcs
  rw [Keyed.graph_cmap_keys] at hmem
  exact hmem

/-- Concrete instantiation of the amended C4. -/
theorem C4_witness :
    ((∀ i ∈ demoC4.nodes_dict.map Prod.fst, ∃ p ∈ demoC4.id_dict, p.2 = i) ∧
      demoC4.detect_cycle = some [0, 0]) ∧
    ∀ i ∈ ([0, 0] : List Nat), ∃ p ∈ demoC4.id_dict, p.2 = i :=
  ⟨⟨by decide, rfl⟩,
    C4_amended_detect_cycle_returns_ids Nat inferInstance demoC4 (by decide) [0, 0] rfl⟩

/-! ## Claim C10 -/

namespace UsizeG

/-- The key/identifier dictionary invariant of the `usize`-keyed graph:
distinct keys, distinct identifiers, identifiers below the counter. -/
def DictOk (g : Graph) : Prop :=
  (g.usize_id_dict.map Prod.fst).Nodup ∧
  (g.usize_id_dict.map Prod.snd).Nodup ∧
  ∀ v ∈ g.usize_id_dict.map Prod.snd, v < g.id_counter

theorem add_edge_preserves_dict (g : Graph) (a b : Nat) :
    (g.add_edge a b).2.usize_id_dict = g.usize_id_dict ∧
    (g.add_edge a b).2.id_counter = g.id_counter := by
  rcases h1 : alookup g.usize_id_dict a with _ | ida
  · simp [Graph.add_edge, h1]
  · rcases h2 : alookup g.usize_id_dict b with _ | idb
    · simp [Graph.add_edge, h1, h2]
    · rcases h3 : alookup g.nodes_dict ida with _ | nd
      · simp [Graph.add_edge, h1, h2, h3]
      · simp [Graph.add_edge, h1, h2, h3]

theorem add_node_fresh (g : Graph) (u : Nat) (hu : alookup g.usize_id_dict u = none) :
    (g.add_node u).1 = Except.ok () ∧
    (g.add_node u).2.usize_id_dict = g.usize_id_dict ++ [(u, g.id_counter)] ∧
    (g.add_node u).2.id_counter = g.id_counter + 1 := by
  rw [Graph.add_node, hu]
  simp [hmInsert_of_alookup_none _ hu]

theorem dictOk_apply (g : Graph) (op : Op) (h : DictOk g) : DictOk (g.apply op) := by
  obtain ⟨hk, hv, hb⟩ := h
  cases op with
  | addEdge a b =>
    have hd := add_edge_preserves_dict g a b
    rw [Graph.apply]
    rw [DictOk, hd.1, hd.2]
    exact ⟨hk, hv, hb⟩
  | addNode u =>
    rw [Graph.apply]
    rcases hu : alookup g.usize_id_dict u with _ | i
    · obtain ⟨-, hdict, hcnt⟩ := add_node_fresh g u hu
      rw [DictOk, hdict, hcnt]
      have hkey : u ∉ g.usize_id_dict.map Prod.fst := (alookup_eq_none _ _).mp hu
      have hcv : g.id_counter ∉ g.usize_id_dict.map Prod.snd := by
        intro hc
        exact absurd (hb _ hc) (lt_irrefl _)
      refine ⟨?_, ?_, ?_⟩
      · rw [List.map_append, List.nodup_append]
        exact ⟨hk, by simp, by simpa [List.disjoint_singleton] using hkey⟩
      · rw [List.map_append, List.nodup_append]
        exact ⟨hv, by simp, by simpa [List.disjoint_singleton] using hcv⟩
      · intro v hvmem
        rw [List.map_append] at hvmem
        rcases List.mem_append.mp hvmem with hvm | hvm
        · exact Nat.lt_succ_of_lt (hb v hvm)
        · simp at hvm
          omega
    · have : (g.add_node u).2 = g := by
        rw [Graph.add_node, hu]
        rfl
      rw [this]
      exact ⟨hk, hv, hb⟩

theorem dictOk_applyOps (ops : List Op) : DictOk (applyOps ops) := by
  have hnew : DictOk Graph.new := by
    refine ⟨by simp [Graph.new], by simp [Graph.new], by simp [Graph.new]⟩
  rw [applyOps]
  generalize Graph.new = g at hnew ⊢
  induction ops generalizing g with
  | nil => exact hnew
  | cons op ops ih =>
    rw [List.foldl_cons]
    exact ih _ (dictOk_apply g op hnew)

/-- With distinct identifiers, the `get_node` scan never reaches the
`NodeID duplication` abort branch. -/
theorem go_total (id : Nat) :
    ∀ (l : List (Nat × Nat)) (ret : Option Nat),
      (l.map Prod.snd).Nodup → (∀ x, ret = some x → id ∉ l.map Prod.snd) →
      ∃ r, get_node_go id l ret = some r := by
  intro l
  induction l with
  | nil =>
    intro ret _ _
    exact ⟨ret, rfl⟩
  | cons p t ih =>
    obtain ⟨k, v⟩ := p
    intro ret hnd hret
    simp only [List.map_cons, List.nodup_cons] at hnd
    rcases ret with _ | x
    · rw [get_node_go]
      by_cases hv : v = id
      · rw [if_pos hv]
        refine ih (some k) hnd.2 ?_
        intro y _ hc
        rw [← hv] at hc
        exact hnd.1 hc
      · rw [if_neg hv]
        refine ih none hnd.2 ?_
        intro y hy
        cases hy
    · rw [get_node_go]
      by_cases hv : v = id
      · exfalso
        refine hret x rfl ?_
        simp [hv]
      · rw [if_neg hv]
        refine ih (some x) hnd.2 ?_
        intro y hy hc
        exact hret y hy (by simp [hc])

/-- A run of `add_node` calls, reporting whether every call succeeded. -/
def addNodesOk : Graph → List Nat → Bool
  | _, [] => true
  | g, u :: us =>
    match g.add_node u with
    | (Except.ok _, g') => addNodesOk g' us
    | (Except.error _, _) => false

theorem addNodesOk_of_fresh : ∀ (us : List Nat) (g : Graph), us.Nodup →
    (∀ u ∈ us, alookup g.usize_id_dict u = none) → addNodesOk g us = true := by
  intro us
  induction us with
  | nil =>
    intro g _ _
    rfl
  | cons u us ih =>
    intro g hnd hfresh
    have hu : alookup g.usize_id_dict u = none := hfresh u (by simp)
    obtain ⟨hok, hdict, -⟩ := add_node_fresh g u hu
    rw [addNodesOk]
    rcases hadd : g.add_node u with ⟨res, g'⟩
    rw [hadd] at hok hdict
    simp only at hok hdict
    subst hok
    show addNodesOk g' us = true
    refine ih g' (List.nodup_cons.mp hnd).2 ?_
    intro u' hu'
    have hne : u ≠ u' := by
      intro hc
      exact (List.nodup_cons.mp hnd).1 (hc ▸ hu')
    rw [hdict, alookup_append_of_none _ (hfresh u' (List.mem_cons_of_mem _ hu'))]
    simp [alookup, hne]

end UsizeG

/-- C10: every sequence of `add_node` calls with pairwise-distinct keys
succeeds in full; under every sequence of API calls the key↔identifier
mapping stays injective in both directions (distinct keys and distinct
identifiers in `usize_id_dict`), and consequently `Graph::get_node` always
returns normally — its `NodeID duplication` abort branch is unreachable. -/
theorem C10_usize_mapping_bijective :
    (∀ us : List Nat, us.Nodup → UsizeG.addNodesOk UsizeG.Graph.new us = true) ∧
    (∀ ops : List UsizeG.Op,
      ((UsizeG.applyOps ops).usize_id_dict.map Prod.fst).Nodup ∧
      ((UsizeG.applyOps ops).usize_id_dict.map Prod.snd).Nodup ∧
      ∀ id, ∃ r, (UsizeG.applyOps ops).get_node id = some r) := by
  constructor
  · intro us hnd
    exact UsizeG.addNodesOk_of_fresh us UsizeG.Graph.new hnd (fun u _ => rfl)
  · intro ops
    obtain ⟨hk, hv, -⟩ := UsizeG.dictOk_applyOps ops
    refine ⟨hk, hv, ?_⟩
    intro id
    exact UsizeG.go_total id (UsizeG.applyOps ops).usize_id_dict none hv
      (fun x hx => by cases hx)

/-- Concrete instantiation of C10. -/
theorem C10_witness :
    (([3, 4] : List Nat).Nodup ∧ UsizeG.addNodesOk UsizeG.Graph.new [3, 4] = true) ∧
    (((UsizeG.applyOps [UsizeG.Op.addNode 7, UsizeG.Op.addNode 9,
        UsizeG.Op.addEdge 7 9]).usize_id_dict.map Prod.fst).Nodup ∧
      ∃ r, (UsizeG.applyOps [UsizeG.Op.addNode 7, UsizeG.Op.addNode 9,
        UsizeG.Op.addEdge 7 9]).get_node 0 = some r) := by
  have h2 := C10_usize_mapping_bijective.2
    [UsizeG.Op.addNode 7, UsizeG.Op.addNode 9, UsizeG.Op.addEdge 7 9]
  exact ⟨⟨by decide, C10_usize_mapping_bijective.1 [3, 4] (by decide)⟩,
    ⟨h2.1, h2.2.2 0⟩⟩

end GraphAnalyses
